import Mathlib

/-!
Shallow embedding of the PythonSudoku solver (src/src/sudoku_final.py and
src/src/sudoku_old.py) and verification of spec claims.

Coordinates are `Fin 9` pairs, mirroring the fixed 9x9 Python lists
(`grid_l = 9`, `sub_l = sub_h = 3`).  The candidate grid `c_grid`
(`candidates_grid` in sudoku_old.py) is a function `Fin 9 → Fin 9 → Finset ℕ`;
auxiliary placed-value sets `row_set`, `col_set`, `s_grid_set` are kept in a
`Board` structure.  Python loops become folds over `List.finRange`;
`itertools.combinations n sets` is `List.sublistsLen n sets` (the same
collection of length-n subsequences, each in original relative order); the
Python `set` of discovered disjoint subsets, whose iteration order is
hash-determined, is modelled as a deduplicated list, and order-sensitive
statements are made explicit by parametrising the elimination phase over the
enumeration list (`applyElims`).
-/

set_option maxRecDepth 8000

namespace Sudoku

/-- Candidate grid: `c_grid[x][y]` from sudoku_final.py. -/
abbrev CGrid := Fin 9 → Fin 9 → Finset ℕ

/-- Pointwise update of a candidate grid at one cell,
modelling an assignment `c_grid[x][y] = s`. -/
def upd2 (g : CGrid) (x y : Fin 9) (s : Finset ℕ) : CGrid :=
  Function.update g x (Function.update (g x) y s)

/-- Sub-grid index of a coordinate: `x // sub_l` with `sub_l = 3`. -/
def sgOf (i : Fin 9) : Fin 3 := ⟨i.val / 3, by omega⟩

/-- The cell at offset `j` inside the sub-grid band of `i`:
`(i // 3) * 3 + j`, as appears in the sub-grid loops of `write_solution`
and `pencil_in`. -/
def blockCell (i : Fin 9) (j : Fin 3) : Fin 9 :=
  ⟨(i.val / 3) * 3 + j.val, by omega⟩

/-- Coordinates visited by the row/column discard loop of
`write_solution` / `pencil_in`: `for i in range(9): ... (x, i) ... (i, y)`. -/
def rowColPositions (x y : Fin 9) : List (Fin 9 × Fin 9) :=
  (List.finRange 9).flatMap fun i => [(x, i), (i, y)]

/-- Coordinates visited by the sub-grid discard loop of
`write_solution` / `pencil_in` (y outer, x inner). -/
def blockPositions (x y : Fin 9) : List (Fin 9 × Fin 9) :=
  (List.finRange 3).flatMap fun j =>
    (List.finRange 3).map fun i => (blockCell x i, blockCell y j)

/-- All coordinates hit by the discard phase of a placement at `(x, y)`:
the sub-grid loop runs first, then the row/column loop (as in the Python). -/
def unitPositions (x y : Fin 9) : List (Fin 9 × Fin 9) :=
  blockPositions x y ++ rowColPositions x y

/-- Fold of `c_grid[px][py].discard(v)` over a list of positions; this is the
shape of the two discard loops of `write_solution` / `pencil_in`. -/
def discardPositions (ps : List (Fin 9 × Fin 9)) (v : ℕ) (g : CGrid) : CGrid :=
  ps.foldl (fun g p => upd2 g p.1 p.2 ((g p.1 p.2).erase v)) g

/-- Full solver state: `m_grid` / `main_grid`, `c_grid` / `candidates_grid`,
and the placed-value sets `row_set`, `col_set`, `s_grid_set`
(`rs` is indexed by y, `cs` by x, as in the Python). -/
@[ext] structure Board where
  m : Fin 9 → Fin 9 → ℕ
  c : CGrid
  rs : Fin 9 → Finset ℕ
  cs : Fin 9 → Finset ℕ
  sgs : Fin 3 → Fin 3 → Finset ℕ

instance : Inhabited Board :=
  ⟨⟨fun _ _ => 0, fun _ _ => ∅, fun _ => ∅, fun _ => ∅, fun _ _ => ∅⟩⟩

/-- `pencil_in(solution, x, y, func)` from sudoku_old.py (the trailing `func`
argument is unused in its body): write the value, add it to the three
placed-value sets, clear the cell's candidate set, then discard the value
over the sub-grid and the row/column. -/
def pencil_in (v : ℕ) (x y : Fin 9) (b : Board) : Board where
  m := fun a bb => if a = x ∧ bb = y then v else b.m a bb
  c := discardPositions (unitPositions x y) v (upd2 b.c x y ∅)
  rs := Function.update b.rs y (insert v (b.rs y))
  cs := Function.update b.cs x (insert v (b.cs x))
  sgs := fun i j =>
    if i = sgOf x ∧ j = sgOf y then insert v (b.sgs i j) else b.sgs i j

/-- The body of `write_solution` from sudoku_final.py for one solved cell:
identical to `pencil_in` except that sudoku_final.py maintains no
placed-value sets after `init`. -/
def writeCell (v : ℕ) (x y : Fin 9) (b : Board) : Board :=
  { b with
    m := fun a bb => if a = x ∧ bb = y then v else b.m a bb
    c := discardPositions (unitPositions x y) v (upd2 b.c x y ∅) }

/-- `full_set = {1, ..., 9}` from both solver files. -/
def full_set : Finset ℕ := {1, 2, 3, 4, 5, 6, 7, 8, 9}

/-- `write_solution(y)` from sudoku_final.py: sweep row `y` left to right,
placing every cell that currently has exactly one candidate (the `pop`
retrieves that single candidate; later cells see the updated grid). -/
def write_solution (y : Fin 9) (b : Board) : Board :=
  (List.finRange 9).foldl
    (fun b x =>
      if h : (b.c x y).card = 1 then
        writeCell ((b.c x y).min' (Finset.card_pos.mp (by omega))) x y b
      else b) b

/-- `single_candidate_square(y)` from sudoku_old.py: as `write_solution`,
but placing through `pencil_in` (which also maintains the placed-value
sets). -/
def single_candidate_square (y : Fin 9) (b : Board) : Board :=
  (List.finRange 9).foldl
    (fun b x =>
      if h : (b.c x y).card = 1 then
        pencil_in ((b.c x y).min' (Finset.card_pos.mp (by omega))) x y b
      else b) b

/-- The counting loop of `single_sq_candidate_row`: scan row `y` left to
right, counting cells whose candidate set contains `w` and remembering the
last such column (`count` / `prev_x`, with `prev_x` initialised to 0). -/
def rowCount (w : ℕ) (y : Fin 9) (g : CGrid) : ℕ × Fin 9 :=
  (List.finRange 9).foldl
    (fun p x => if w ∈ g x y then (p.1 + 1, x) else p) (0, ⟨0, by omega⟩)

/-- One iteration of the candidate loop of `single_sq_candidate_row`:
if `w` occurs as a candidate in exactly one cell of row `y`, place it there. -/
def hiddenStepRow (y : Fin 9) (b : Board) (w : ℕ) : Board :=
  let r := rowCount w y b.c
  if r.1 = 1 then pencil_in w r.2 y b else b

/-- `single_sq_candidate_row(y)` from sudoku_old.py.  The Python iterates
`full_set.difference(row_set[y])`, a set of small ints, which CPython
enumerates in ascending order; the set difference is computed once, before
the loop body runs. -/
def single_sq_candidate_row (y : Fin 9) (b : Board) : Board :=
  ((full_set \ b.rs y).sort (· ≤ ·)).foldl (hiddenStepRow y) b

/-- The cell in row band `bj` at offset `r` (`bj * 3 + r`); also reused for
column coordinates, which follow the same formula. -/
def rowIdx (bj : Fin 3) (r : Fin 3) : Fin 9 := ⟨bj.val * 3 + r.val, by omega⟩

/-- `subrow_sets[r]` of `number_claiming_row(sub_grid_x, sub_grid_y)`:
the union of the candidate sets on sub-row `r` of sub-grid `(bi, bj)`. -/
def subrowSet (bi bj : Fin 3) (g : CGrid) (r : Fin 3) : Finset ℕ :=
  (List.finRange 3).foldl (fun s i => s ∪ g (rowIdx bi i) (rowIdx bj r)) ∅

/-- `number_claiming_row(sub_grid_x, sub_grid_y)` from sudoku_old.py:
for each of the three sub-rows, candidates appearing in that sub-row's
cells and in neither of the other two are discarded from the rest of the
parent row (cells outside sub-grid column band `bi`).  `r + 1` and `r + 2`
in `Fin 3` are exactly the other two sub-rows. -/
def number_claiming_row (bi bj : Fin 3) (b : Board) : Board :=
  let claimed : Fin 3 → Finset ℕ := fun r =>
    subrowSet bi bj b.c r \
      (subrowSet bi bj b.c (r + 1) ∪ subrowSet bi bj b.c (r + 2))
  (List.finRange 3).foldl
    (fun b r =>
      ((claimed r).sort (· ≤ ·)).foldl
        (fun b w =>
          (List.finRange 9).foldl
            (fun b x =>
              if x.val / 3 ≠ bi.val then
                { b with
                  c := upd2 b.c x (rowIdx bj r)
                          ((b.c x (rowIdx bj r)).erase w) }
              else b) b) b) b

/-- The collection loop of `disjoint_subsets`: candidate sets of the unit's
cells whose cardinality lies in `(1, n]`, in cell-iteration order. -/
def collectSets (cells : List (Fin 9 × Fin 9)) (n : ℕ) (g : CGrid) :
    List (Finset ℕ) :=
  cells.filterMap fun p =>
    if 1 < (g p.1 p.2).card ∧ (g p.1 p.2).card ≤ n then some (g p.1 p.2)
    else none

/-- `superset = set(); for c in combination: superset = superset | c`. -/
def foldUnion (l : List (Finset ℕ)) : Finset ℕ := l.foldl (· ∪ ·) ∅

/-- `get_disjoint_subsets(sets, n)` / the combination loop of
`disjoint_subsets`: over every combination of `n` of the collected sets,
keep the union when its cardinality is exactly `n`.  The Python stores the
results in a `set` of `frozenset`s whose iteration order is
hash-determined; we model it as the deduplicated discovery-order list and
make order-sensitive statements explicit via `applyElims`. -/
def dsList (sets : List (Finset ℕ)) (n : ℕ) : List (Finset ℕ) :=
  ((sets.sublistsLen n).filterMap fun comb =>
    if (foldUnion comb).card = n then some (foldUnion comb) else none).dedup

/-- The elimination loop of `disjoint_subsets` for one discovered subset
`d`: every cell of the unit whose current candidate set is not a subset of
`d` has `d` removed (`c_grid[x][y] = c_grid[x][y] - d`, a fresh set
object). -/
def elimStep (d : Finset ℕ) (cells : List (Fin 9 × Fin 9)) (g : CGrid) :
    CGrid :=
  cells.foldl
    (fun g p =>
      if ¬ g p.1 p.2 ⊆ d then upd2 g p.1 p.2 (g p.1 p.2 \ d) else g) g

/-- The outer elimination loop of `disjoint_subsets`, parametrised by the
enumeration order `ds` of the discovered subsets.  Eliminations for later
subsets read the candidate sets already updated by earlier ones. -/
def applyElims (ds : List (Finset ℕ)) (cells : List (Fin 9 × Fin 9))
    (g : CGrid) : CGrid :=
  ds.foldl (fun g d => elimStep d cells g) g

/-- `disjoint_subsets(x_range, y_range, n)` from sudoku_final.py, with the
rectangle given as its cell-iteration list (y outer, x inner). -/
def disjoint_subsets (cells : List (Fin 9 × Fin 9)) (n : ℕ) (g : CGrid) :
    CGrid :=
  applyElims (dsList (collectSets cells n g) n) cells g

/-- Row `y` as its iteration-ordered coordinate list. -/
def rowCells (y : Fin 9) : List (Fin 9 × Fin 9) :=
  (List.finRange 9).map fun x => (x, y)

/-- Column `x` as its iteration-ordered coordinate list. -/
def colCells (x : Fin 9) : List (Fin 9 × Fin 9) :=
  (List.finRange 9).map fun y => (x, y)

/-- Sub-grid `(bi, bj)` as its iteration-ordered coordinate list
(y outer, x inner). -/
def blockCells (bi bj : Fin 3) : List (Fin 9 × Fin 9) :=
  (List.finRange 3).flatMap fun j =>
    (List.finRange 3).map fun i => (rowIdx bi i, rowIdx bj j)

/-- The unit order of `iterator(func, *args)` from sudoku_final.py:
row 0, column 0, row 1, column 1, ..., then the nine sub-grids
(`s_grid_y` outer). -/
def allUnits : List (List (Fin 9 × Fin 9)) :=
  ((List.finRange 9).flatMap fun sq => [rowCells sq, colCells sq]) ++
    ((List.finRange 3).flatMap fun bj =>
      (List.finRange 3).map fun bi => blockCells bi bj)

/-- `for i in range(grid_l): write_solution(i)` from `main()`. -/
def writeAll (b : Board) : Board :=
  (List.finRange 9).foldl (fun b i => write_solution i b) b

/-- `for n in range(2, 5): iterator(disjoint_subsets, n)` from `main()`. -/
def disjointAll (b : Board) : Board :=
  ([2, 3, 4] : List ℕ).foldl
    (fun b n =>
      allUnits.foldl (fun b u => { b with c := disjoint_subsets u n b.c }) b)
    b

/-- One round of the `main()` loop of sudoku_final.py. -/
def roundF (b : Board) : Board := disjointAll (writeAll b)

/-- `k` rounds, with no early exit (used to characterise the driver). -/
def iterRound : ℕ → Board → Board
  | 0, b => b
  | k + 1, b => iterRound k (roundF b)

/-- `is_solved()` from sudoku_final.py: true iff every cell's candidate set
is empty. -/
def is_solved (b : Board) : Bool :=
  (List.finRange 9).all fun x => (List.finRange 9).all fun y => b.c x y == ∅

/-- The `for x in range(100)` loop of `main()` with its
`if is_solved(): break`, on remaining fuel; the Bool records whether the
break (solved) was reached. -/
def solveLoop : ℕ → Board → Board × Bool
  | 0, b => (b, false)
  | k + 1, b =>
    let b' := roundF b
    if is_solved b' then (b', true) else solveLoop k b'

/-- The driver of `main()`: at most 100 rounds. -/
def mainSolve (b : Board) : Board × Bool := solveLoop 100 b

/-- Structural well-formedness of the raw puzzle input, as a list of rows of
digit values: `init` reads the first 9 entries of the first 9 lines
(`line[x]` for `x < 9`) and converts each character with `int(...)`.
A missing line or a short line raises an uncaught `IndexError`, a
non-digit character an uncaught `ValueError`; both are modelled as the
`none` branch of `initB`.  No other validation exists in the code. -/
def structOk (raw : List (List ℕ)) : Bool :=
  decide (9 ≤ raw.length) &&
    (List.range 9).all fun y =>
      decide (9 ≤ (raw.getD y []).length) &&
        (List.range 9).all fun x => decide ((raw.getD y []).getD x 0 ≤ 9)

/-- Entry `line_y[x]` of the raw input. -/
def rawVal (raw : List (List ℕ)) (x y : Fin 9) : ℕ :=
  (raw.getD y.val []).getD x.val 0

/-- `init()` from sudoku_final.py (identical in sudoku_old.py up to names):
read the grid, register every nonzero value in its row/column/sub-grid
placed-value set, then give every zero cell the candidate set
`full_set - (row_set[y] | col_set[x] | s_grid_set[x//3][y//3])`.
There is no duplicate or consistency check of any kind. -/
def initB (raw : List (List ℕ)) : Option Board :=
  if structOk raw then
    let v := rawVal raw
    let rs : Fin 9 → Finset ℕ := fun y =>
      (List.finRange 9).foldl
        (fun s x => if v x y ≠ 0 then insert (v x y) s else s) ∅
    let cs : Fin 9 → Finset ℕ := fun x =>
      (List.finRange 9).foldl
        (fun s y => if v x y ≠ 0 then insert (v x y) s else s) ∅
    let sgs : Fin 3 → Fin 3 → Finset ℕ := fun i j =>
      (List.finRange 3).foldl
        (fun s jj =>
          (List.finRange 3).foldl
            (fun s ii =>
              if v (rowIdx i ii) (rowIdx j jj) ≠ 0 then
                insert (v (rowIdx i ii) (rowIdx j jj)) s
              else s) s) ∅
    some
      { m := fun x y => v x y
        c := fun x y =>
          if v x y = 0 then full_set \ (rs y ∪ cs x ∪ sgs (sgOf x) (sgOf y))
          else ∅
        rs := rs
        cs := cs
        sgs := sgs }
  else none

/-! ### Concrete states used by witnesses and counterexamples -/

/-- A row-0 state containing the spec's disjoint-subset example:
three cells with candidate sets `{2,4}`, `{2,7}`, `{4,7}`, one further cell
with five candidates (too many to enter the combination search), the rest
solved. -/
def gW1 : CGrid := fun x y =>
  if y = 0 then
    if x = 0 then {2, 4} else
    if x = 1 then {2, 7} else
    if x = 2 then {4, 7} else
    if x = 3 then {1, 2, 4, 5, 9} else ∅
  else ∅

/-- A row-0 state in which one `disjoint_subsets` invocation with `n = 2`
discovers two disjoint subsets, `{5,6}` (cells 0 and 1) and `{4,7}`
(cells 2 and 3), while cell 4 holds `{4,5}`. -/
def gX1 : CGrid := fun x y =>
  if y = 0 then
    if x = 0 then {5, 6} else
    if x = 1 then {5, 6} else
    if x = 2 then {4, 7} else
    if x = 3 then {4, 7} else
    if x = 4 then {4, 5} else ∅
  else ∅

/-- As `gW1`/`gX1`, with subsets `{2,3}` and `{1,4}` and middle cell
`{1,2}`; used to exhibit enumeration-order dependence. -/
def gX2 : CGrid := fun x y =>
  if y = 0 then
    if x = 0 then {2, 3} else
    if x = 1 then {2, 3} else
    if x = 2 then {1, 4} else
    if x = 3 then {1, 4} else
    if x = 4 then {1, 2} else ∅
  else ∅

/-- A board whose row 0 has exactly the values 3 and 5 unplaced, with cell
(0,0) the unique holder of both as candidates. -/
def bC5 : Board where
  m := fun _ _ => 0
  c := fun x y => if y = 0 ∧ x = 0 then {3, 5} else ∅
  rs := fun y => if y = 0 then {1, 2, 4, 6, 7, 8, 9} else ∅
  cs := fun _ => ∅
  sgs := fun _ _ => ∅

/-- A board whose row 0 has exactly the values 3 and 5 unplaced, where 3 is
a hidden single of cell (0,0) and 5 is a candidate of two cells. -/
def bW5 : Board where
  m := fun _ _ => 0
  c := fun x y =>
    if y = 0 ∧ x = 0 then {3, 5} else if y = 0 ∧ x = 1 then {5} else ∅
  rs := fun y => if y = 0 then {1, 2, 4, 6, 7, 8, 9} else ∅
  cs := fun _ => ∅
  sgs := fun _ _ => ∅

/-- A raw input accepted by `init` in which cell (0,0) is blank but sees all
nine values (1..8 in its row, 9 in its column), so its candidate set is
computed empty while its grid value stays 0. -/
def raw3 : List (List ℕ) :=
  [[0, 1, 2, 3, 4, 5, 6, 7, 8],
   [9, 1, 1, 1, 1, 1, 1, 1, 1],
   [1, 1, 1, 1, 1, 1, 1, 1, 1],
   [1, 1, 1, 1, 1, 1, 1, 1, 1],
   [1, 1, 1, 1, 1, 1, 1, 1, 1],
   [1, 1, 1, 1, 1, 1, 1, 1, 1],
   [1, 1, 1, 1, 1, 1, 1, 1, 1],
   [1, 1, 1, 1, 1, 1, 1, 1, 1],
   [1, 1, 1, 1, 1, 1, 1, 1, 1]]

/-- The board `init` builds from `raw3`. -/
def bd3 : Board := (initB raw3).getD default

/-- A fully placed board satisfying both cell/candidate invariants. -/
def bW3 : Board where
  m := fun _ _ => 1
  c := fun _ _ => ∅
  rs := fun _ => full_set
  cs := fun _ => full_set
  sgs := fun _ _ => full_set

/-- A raw input with two 5s in row 0 — the spec's own example of malformed
input — which `init` accepts without complaint. -/
def raw7 : List (List ℕ) :=
  [[5, 5, 0, 1, 2, 3, 4, 6, 7],
   [0, 0, 0, 0, 0, 0, 0, 0, 0],
   [0, 0, 0, 0, 0, 0, 0, 0, 0],
   [0, 0, 0, 0, 0, 0, 0, 0, 0],
   [0, 0, 0, 0, 0, 0, 0, 0, 0],
   [0, 0, 0, 0, 0, 0, 0, 0, 0],
   [0, 0, 0, 0, 0, 0, 0, 0, 0],
   [0, 0, 0, 0, 0, 0, 0, 0, 0],
   [0, 0, 0, 0, 0, 0, 0, 0, 0]]

/-- The board `init` builds from `raw7`. -/
def bd7 : Board := (initB raw7).getD default

/-- A raw input with two 7s in column 0, likewise accepted by `init`. -/
def raw7w : List (List ℕ) :=
  [[7, 0, 0, 0, 0, 0, 0, 0, 0],
   [7, 0, 0, 0, 0, 0, 0, 0, 0],
   [0, 0, 0, 0, 0, 0, 0, 0, 0],
   [0, 0, 0, 0, 0, 0, 0, 0, 0],
   [0, 0, 0, 0, 0, 0, 0, 0, 0],
   [0, 0, 0, 0, 0, 0, 0, 0, 0],
   [0, 0, 0, 0, 0, 0, 0, 0, 0],
   [0, 0, 0, 0, 0, 0, 0, 0, 0],
   [0, 0, 0, 0, 0, 0, 0, 0, 0]]

/-- A generic nontrivial board used to instantiate placement witnesses. -/
def bGen : Board where
  m := fun _ _ => 0
  c := fun _ _ => full_set
  rs := fun _ => ∅
  cs := fun _ => ∅
  sgs := fun _ _ => ∅

/-! ### Pointwise behaviour of updates and placements -/

theorem upd2_apply (g : CGrid) (x y a b : Fin 9) (s : Finset ℕ) :
    upd2 g x y s a b = if a = x ∧ b = y then s else g a b := by
  unfold upd2
  by_cases hax : a = x <;> by_cases hby : b = y <;>
    simp [hax, hby, Function.update]

theorem mem_rowColPositions {x y a b : Fin 9} :
    (a, b) ∈ rowColPositions x y ↔ a = x ∨ b = y := by
  constructor
  · intro h
    rcases List.mem_flatMap.mp h with ⟨i, _, hi⟩
    simp only [List.mem_cons, List.mem_singleton, Prod.mk.injEq,
      List.not_mem_nil, or_false] at hi
    rcases hi with ⟨h1, _⟩ | ⟨_, h2⟩
    · exact Or.inl h1
    · exact Or.inr h2
  · intro h
    rcases h with h | h
    · exact List.mem_flatMap.mpr ⟨b, List.mem_finRange b, by simp [h]⟩
    · exact List.mem_flatMap.mpr ⟨a, List.mem_finRange a, by simp [h]⟩

theorem mem_blockPositions {x y a b : Fin 9} :
    (a, b) ∈ blockPositions x y ↔ sgOf a = sgOf x ∧ sgOf b = sgOf y := by
  constructor
  · intro h
    rcases List.mem_flatMap.mp h with ⟨j, _, hj⟩
    rcases List.mem_map.mp hj with ⟨i, _, hij⟩
    have ha : a = blockCell x i := congrArg Prod.fst hij.symm
    have hb : b = blockCell y j := congrArg Prod.snd hij.symm
    subst ha; subst hb
    constructor
    · apply Fin.ext
      show ((x.val / 3) * 3 + i.val) / 3 = x.val / 3
      have hi3 : i.val < 3 := i.isLt
      omega
    · apply Fin.ext
      show ((y.val / 3) * 3 + j.val) / 3 = y.val / 3
      have hj3 : j.val < 3 := j.isLt
      omega
  · rintro ⟨h1, h2⟩
    have h1' : a.val / 3 = x.val / 3 := congrArg Fin.val h1
    have h2' : b.val / 3 = y.val / 3 := congrArg Fin.val h2
    refine List.mem_flatMap.mpr ⟨⟨b.val % 3, by omega⟩, List.mem_finRange _, ?_⟩
    refine List.mem_map.mpr ⟨⟨a.val % 3, by omega⟩, List.mem_finRange _, ?_⟩
    have ha : blockCell x ⟨a.val % 3, by omega⟩ = a := by
      apply Fin.ext
      show (x.val / 3) * 3 + a.val % 3 = a.val
      omega
    have hb : blockCell y ⟨b.val % 3, by omega⟩ = b := by
      apply Fin.ext
      show (y.val / 3) * 3 + b.val % 3 = b.val
      omega
    rw [ha, hb]

theorem mem_unitPositions {x y a b : Fin 9} :
    (a, b) ∈ unitPositions x y ↔
      (sgOf a = sgOf x ∧ sgOf b = sgOf y) ∨ a = x ∨ b = y := by
  unfold unitPositions
  rw [List.mem_append, mem_blockPositions, mem_rowColPositions]

theorem discardPositions_apply (v : ℕ) :
    ∀ (ps : List (Fin 9 × Fin 9)) (g : CGrid) (a b : Fin 9),
      discardPositions ps v g a b =
        if (a, b) ∈ ps then (g a b).erase v else g a b := by
  intro ps
  induction ps with
  | nil => intro g a b; simp [discardPositions]
  | cons p t ih =>
    intro g a b
    have hstep : discardPositions (p :: t) v g =
        discardPositions t v (upd2 g p.1 p.2 ((g p.1 p.2).erase v)) := rfl
    rw [hstep, ih]
    rcases p with ⟨px, py⟩
    by_cases hab : (a, b) = (px, py)
    · have ha : a = px := congrArg Prod.fst hab
      have hb : b = py := congrArg Prod.snd hab
      subst ha; subst hb
      by_cases ht : (a, b) ∈ t <;>
        simp [ht, upd2_apply, Finset.erase_idem, List.mem_cons]
    · have hne : ¬(a = px ∧ b = py) := by
        intro ⟨h1, h2⟩; exact hab (by rw [h1, h2])
      by_cases ht : (a, b) ∈ t <;>
        simp [ht, upd2_apply, hne, List.mem_cons, hab]

theorem pencil_in_m (v : ℕ) (x y a bb : Fin 9) (b : Board) :
    (pencil_in v x y b).m a bb = if a = x ∧ bb = y then v else b.m a bb := rfl

theorem writeCell_m (v : ℕ) (x y a bb : Fin 9) (b : Board) :
    (writeCell v x y b).m a bb = if a = x ∧ bb = y then v else b.m a bb := rfl

theorem placed_c_apply (v : ℕ) (x y a bb : Fin 9) (g : CGrid) :
    discardPositions (unitPositions x y) v (upd2 g x y ∅) a bb =
      if a = x ∧ bb = y then ∅
      else if (a, bb) ∈ unitPositions x y then (g a bb).erase v
      else g a bb := by
  rw [discardPositions_apply, upd2_apply]
  by_cases hxy : a = x ∧ bb = y
  · have hmem : (a, bb) ∈ unitPositions x y :=
      mem_unitPositions.mpr (Or.inr (Or.inl hxy.1))
    simp [hxy, hmem]
  · simp only [hxy, if_false]

theorem pencil_in_c (v : ℕ) (x y a bb : Fin 9) (b : Board) :
    (pencil_in v x y b).c a bb =
      if a = x ∧ bb = y then ∅
      else if (a, bb) ∈ unitPositions x y then (b.c a bb).erase v
      else b.c a bb := placed_c_apply v x y a bb b.c

theorem writeCell_c (v : ℕ) (x y a bb : Fin 9) (b : Board) :
    (writeCell v x y b).c a bb =
      if a = x ∧ bb = y then ∅
      else if (a, bb) ∈ unitPositions x y then (b.c a bb).erase v
      else b.c a bb := placed_c_apply v x y a bb b.c

theorem pencil_in_c_subset (v : ℕ) (x y a bb : Fin 9) (b : Board) :
    (pencil_in v x y b).c a bb ⊆ b.c a bb := by
  rw [pencil_in_c]
  split
  · exact Finset.empty_subset _
  · split
    · exact Finset.erase_subset _ _
    · exact Finset.Subset.refl _

theorem writeCell_c_subset (v : ℕ) (x y a bb : Fin 9) (b : Board) :
    (writeCell v x y b).c a bb ⊆ b.c a bb := by
  rw [writeCell_c]
  split
  · exact Finset.empty_subset _
  · split
    · exact Finset.erase_subset _ _
    · exact Finset.Subset.refl _

/-! ### Monotonicity machinery -/

theorem foldl_c_subset {α : Type} (f : Board → α → Board)
    (h : ∀ b x a bb, (f b x).c a bb ⊆ b.c a bb) :
    ∀ (l : List α) (b : Board) (a bb : Fin 9),
      ((l.foldl f b).c a bb) ⊆ b.c a bb := by
  intro l
  induction l with
  | nil => intro b a bb; exact Finset.Subset.refl _
  | cons x t ih =>
    intro b a bb
    exact (ih (f b x) a bb).trans (h b x a bb)

theorem foldl_g_subset {α : Type} (f : CGrid → α → CGrid)
    (h : ∀ g x a bb, (f g x) a bb ⊆ g a bb) :
    ∀ (l : List α) (g : CGrid) (a bb : Fin 9),
      (l.foldl f g) a bb ⊆ g a bb := by
  intro l
  induction l with
  | nil => intro g a bb; exact Finset.Subset.refl _
  | cons x t ih =>
    intro g a bb
    exact (ih (f g x) a bb).trans (h g x a bb)

theorem write_solution_c_subset (y : Fin 9) (b : Board) (a bb : Fin 9) :
    (write_solution y b).c a bb ⊆ b.c a bb := by
  unfold write_solution
  refine foldl_c_subset _ ?_ _ b a bb
  intro b x a bb
  dsimp only
  split
  · exact writeCell_c_subset _ _ _ _ _ _
  · exact Finset.Subset.refl _

theorem single_candidate_square_c_subset (y : Fin 9) (b : Board)
    (a bb : Fin 9) :
    (single_candidate_square y b).c a bb ⊆ b.c a bb := by
  unfold single_candidate_square
  refine foldl_c_subset _ ?_ _ b a bb
  intro b x a bb
  dsimp only
  split
  · exact pencil_in_c_subset _ _ _ _ _ _
  · exact Finset.Subset.refl _

theorem hiddenStepRow_c_subset (y : Fin 9) (b : Board) (w : ℕ)
    (a bb : Fin 9) :
    (hiddenStepRow y b w).c a bb ⊆ b.c a bb := by
  unfold hiddenStepRow
  dsimp only
  split
  · exact pencil_in_c_subset _ _ _ _ _ _
  · exact Finset.Subset.refl _

theorem single_sq_candidate_row_c_subset (y : Fin 9) (b : Board)
    (a bb : Fin 9) :
    (single_sq_candidate_row y b).c a bb ⊆ b.c a bb :=
  foldl_c_subset _ (fun b w a bb => hiddenStepRow_c_subset y b w a bb) _ b a bb

theorem number_claiming_row_c_subset (bi bj : Fin 3) (b : Board)
    (a bb : Fin 9) :
    (number_claiming_row bi bj b).c a bb ⊆ b.c a bb := by
  refine foldl_c_subset _ ?_ _ b a bb
  intro b r a bb
  refine foldl_c_subset _ ?_ _ b a bb
  intro b w a bb
  refine foldl_c_subset _ ?_ _ b a bb
  intro b x a bb
  dsimp only
  split
  · show upd2 b.c x _ _ a bb ⊆ b.c a bb
    rw [upd2_apply]
    split
    · rename_i hcase
      rw [hcase.1, hcase.2]
      exact Finset.erase_subset _ _
    · exact Finset.Subset.refl _
  · exact Finset.Subset.refl _

theorem elimStep_c_subset (d : Finset ℕ) (cells : List (Fin 9 × Fin 9))
    (g : CGrid) (a bb : Fin 9) :
    elimStep d cells g a bb ⊆ g a bb := by
  refine foldl_g_subset _ ?_ _ g a bb
  intro g p a bb
  dsimp only
  split
  · rw [upd2_apply]
    split
    · rename_i hcase
      rw [hcase.1, hcase.2]
      exact Finset.sdiff_subset
    · exact Finset.Subset.refl _
  · exact Finset.Subset.refl _

theorem applyElims_c_subset (ds : List (Finset ℕ))
    (cells : List (Fin 9 × Fin 9)) (g : CGrid) (a bb : Fin 9) :
    applyElims ds cells g a bb ⊆ g a bb :=
  foldl_g_subset _ (fun g d a bb => elimStep_c_subset d cells g a bb) _ g a bb

theorem disjoint_subsets_c_subset (cells : List (Fin 9 × Fin 9)) (n : ℕ)
    (g : CGrid) (a bb : Fin 9) :
    disjoint_subsets cells n g a bb ⊆ g a bb :=
  applyElims_c_subset _ cells g a bb

theorem writeAll_c_subset (b : Board) (a bb : Fin 9) :
    (writeAll b).c a bb ⊆ b.c a bb := by
  unfold writeAll
  exact foldl_c_subset _ (fun b i a bb => write_solution_c_subset i b a bb)
    _ b a bb

theorem disjointAll_c_subset (b : Board) (a bb : Fin 9) :
    (disjointAll b).c a bb ⊆ b.c a bb := by
  unfold disjointAll
  refine foldl_c_subset _ ?_ _ b a bb
  intro b n a bb
  refine foldl_c_subset _ ?_ _ b a bb
  intro b u a bb
  exact disjoint_subsets_c_subset u n b.c a bb

theorem roundF_c_subset (b : Board) (a bb : Fin 9) :
    (roundF b).c a bb ⊆ b.c a bb :=
  (disjointAll_c_subset (writeAll b) a bb).trans (writeAll_c_subset b a bb)

theorem iterRound_succ_c_subset (k : ℕ) (b : Board) (a bb : Fin 9) :
    (iterRound (k + 1) b).c a bb ⊆ (iterRound k b).c a bb := by
  induction k generalizing b with
  | zero => exact roundF_c_subset b a bb
  | succ k ih =>
    show (iterRound (k + 1) (roundF b)).c a bb ⊆ (iterRound k (roundF b)).c a bb
    exact ih (roundF b)

/-- C2.  Every technique invocation — naked single (`write_solution` of
sudoku_final.py and `single_candidate_square` of sudoku_old.py, both
placing through the propagation of a placement), placement propagation
itself (`pencil_in`), hidden single (`single_sq_candidate_row`), claiming
(`number_claiming_row`), and disjoint-subset elimination
(`disjoint_subsets`) — leaves each cell's candidate set a subset of what it
was before the invocation; consequently, across consecutive driver rounds,
each cell's candidate-set cardinality never increases. -/
theorem techniques_monotone :
    ∀ (b : Board) (v : ℕ) (x y : Fin 9) (bi bj : Fin 3)
      (cells : List (Fin 9 × Fin 9)) (n : ℕ) (a bb : Fin 9) (k : ℕ),
      (write_solution y b).c a bb ⊆ b.c a bb ∧
      (single_candidate_square y b).c a bb ⊆ b.c a bb ∧
      (pencil_in v x y b).c a bb ⊆ b.c a bb ∧
      (single_sq_candidate_row y b).c a bb ⊆ b.c a bb ∧
      (number_claiming_row bi bj b).c a bb ⊆ b.c a bb ∧
      disjoint_subsets cells n b.c a bb ⊆ b.c a bb ∧
      ((iterRound (k + 1) b).c a bb).card ≤ ((iterRound k b).c a bb).card :=
  fun b v x y bi bj cells n a bb k =>
    ⟨write_solution_c_subset y b a bb,
     single_candidate_square_c_subset y b a bb,
     pencil_in_c_subset v x y a bb b,
     single_sq_candidate_row_c_subset y b a bb,
     number_claiming_row_c_subset bi bj b a bb,
     disjoint_subsets_c_subset cells n b.c a bb,
     Finset.card_le_card (iterRound_succ_c_subset k b a bb)⟩

/-! ### Pointwise behaviour of disjoint-subset elimination -/

theorem elimStep_apply (d : Finset ℕ) :
    ∀ (cells : List (Fin 9 × Fin 9)) (g : CGrid) (a b : Fin 9),
      elimStep d cells g a b =
        if (a, b) ∈ cells ∧ ¬ g a b ⊆ d then g a b \ d else g a b := by
  intro cells
  induction cells with
  | nil => intro g a b; simp [elimStep]
  | cons p t ih =>
    intro g a b
    have hstep : elimStep d (p :: t) g =
        elimStep d t
          (if ¬ g p.1 p.2 ⊆ d then upd2 g p.1 p.2 (g p.1 p.2 \ d) else g) :=
      rfl
    rw [hstep]
    rcases p with ⟨px, py⟩
    by_cases hsub : g px py ⊆ d
    · rw [if_neg (by simpa using hsub), ih]
      by_cases hab : (a, b) = (px, py)
      · have ha : a = px := congrArg Prod.fst hab
        have hb : b = py := congrArg Prod.snd hab
        subst ha; subst hb
        simp [List.mem_cons, hsub]
      · simp [List.mem_cons, hab]
    · rw [if_pos (by simpa using hsub), ih]
      by_cases hab : (a, b) = (px, py)
      · have ha : a = px := congrArg Prod.fst hab
        have hb : b = py := congrArg Prod.snd hab
        subst ha; subst hb
        have hcell : upd2 g a b (g a b \ d) a b = g a b \ d := by
          rw [upd2_apply]; simp
        by_cases ht : (a, b) ∈ t
        · by_cases h2 : g a b \ d ⊆ d
          · rw [if_neg (by rw [hcell]; simp [h2]), hcell,
              if_pos ⟨List.mem_cons_self _ _, hsub⟩]
          · rw [if_pos ⟨ht, by rw [hcell]; exact h2⟩, hcell,
              Finset.sdiff_idem, if_pos ⟨List.mem_cons_self _ _, hsub⟩]
        · rw [if_neg (by simp [ht]), hcell,
            if_pos ⟨List.mem_cons_self _ _, hsub⟩]
      · have hother : upd2 g px py (g px py \ d) a b = g a b := by
          rw [upd2_apply]
          have : ¬(a = px ∧ b = py) := by
            intro ⟨h1, h2⟩; exact hab (by rw [h1, h2])
          simp [this]
        rw [hother]
        by_cases ht : (a, b) ∈ t
        · simp [List.mem_cons, ht, hab]
        · simp [List.mem_cons, ht, hab]

theorem applyElims_nil (cells : List (Fin 9 × Fin 9)) (g : CGrid) :
    applyElims [] cells g = g := rfl

theorem applyElims_cons (d : Finset ℕ) (ds : List (Finset ℕ))
    (cells : List (Fin 9 × Fin 9)) (g : CGrid) :
    applyElims (d :: ds) cells g = applyElims ds cells (elimStep d cells g) :=
  rfl

/-- C1 (amended).  For a unit and `n`, if `n` distinct cells have candidate
sets of cardinality in `(1, n]` whose union `D` has cardinality exactly
`n`, and `D` is the only disjoint subset the invocation discovers, then
after one invocation of `disjoint_subsets` every cell of the unit whose
candidate set is not a subset of `D` has all values of `D` removed, and
every cell whose candidate set is a subset of `D` — in particular each of
the `n` contributing cells — is unaffected.  (When further subsets are
discovered in the same invocation, later eliminations test subset-ness
against partially updated candidate sets and can be skipped; see the
counterexample.) -/
theorem disjoint_subsets_unique_correct
    (cells : List (Fin 9 × Fin 9)) (n : ℕ) (g : CGrid) (D : Finset ℕ)
    (ps : List (Fin 9 × Fin 9))
    (hlen : ps.length = n) (hnodup : ps.Nodup)
    (hmem : ∀ p ∈ ps, p ∈ cells ∧ 1 < (g p.1 p.2).card ∧ (g p.1 p.2).card ≤ n)
    (hunion : foldUnion (ps.map fun p => g p.1 p.2) = D)
    (hcard : D.card = n)
    (hd : dsList (collectSets cells n g) n = [D]) :
    ∀ p ∈ cells,
      (¬ g p.1 p.2 ⊆ D →
        disjoint_subsets cells n g p.1 p.2 = g p.1 p.2 \ D ∧
        ∀ v ∈ D, v ∉ disjoint_subsets cells n g p.1 p.2) ∧
      (g p.1 p.2 ⊆ D → disjoint_subsets cells n g p.1 p.2 = g p.1 p.2) := by
  intro p hp
  have hds : disjoint_subsets cells n g = elimStep D cells g := by
    unfold disjoint_subsets
    rw [hd, applyElims_cons, applyElims_nil]
  constructor
  · intro hnsub
    rw [hds, elimStep_apply, if_pos ⟨hp, hnsub⟩]
    exact ⟨rfl, fun v hv => by simp [hv]⟩
  · intro hsub
    rw [hds, elimStep_apply, if_neg (by simp [hsub])]

/-- Witness for C1 at the spec's own example: sets `{2,4}`, `{2,7}`,
`{4,7}` in cells 0, 1, 2 of row 0 with `n = 3`; the invocation discovers
exactly `{2,4,7}`, the other unsolved cell `{1,2,4,5,9}` has `{2,4,7}`
removed, and each contributing cell is unchanged. -/
theorem disjoint_subsets_unique_correct_witness :
    (([((0 : Fin 9), (0 : Fin 9)), (1, 0), (2, 0)].length = 3) ∧
     [((0 : Fin 9), (0 : Fin 9)), (1, 0), (2, 0)].Nodup ∧
     (∀ p ∈ [((0 : Fin 9), (0 : Fin 9)), (1, 0), (2, 0)],
        p ∈ rowCells 0 ∧ 1 < (gW1 p.1 p.2).card ∧ (gW1 p.1 p.2).card ≤ 3) ∧
     foldUnion ([((0 : Fin 9), (0 : Fin 9)), (1, 0), (2, 0)].map
        fun p => gW1 p.1 p.2) = {2, 4, 7} ∧
     ({2, 4, 7} : Finset ℕ).card = 3 ∧
     dsList (collectSets (rowCells 0) 3 gW1) 3 = [{2, 4, 7}]) ∧
    (∀ p ∈ rowCells 0,
      (¬ gW1 p.1 p.2 ⊆ {2, 4, 7} →
        disjoint_subsets (rowCells 0) 3 gW1 p.1 p.2 =
          gW1 p.1 p.2 \ {2, 4, 7} ∧
        ∀ v ∈ ({2, 4, 7} : Finset ℕ),
          v ∉ disjoint_subsets (rowCells 0) 3 gW1 p.1 p.2) ∧
      (gW1 p.1 p.2 ⊆ {2, 4, 7} →
        disjoint_subsets (rowCells 0) 3 gW1 p.1 p.2 = gW1 p.1 p.2)) :=
  ⟨⟨by decide, by decide, by decide, by decide, by decide, by decide⟩,
   disjoint_subsets_unique_correct (rowCells 0) 3 gW1 {2, 4, 7}
     [(0, 0), (1, 0), (2, 0)] (by decide) (by decide) (by decide) (by decide)
     (by decide) (by decide)⟩

/-- Counterexample to C1 as stated.  In `gX1` (row 0: `{5,6}`, `{5,6}`,
`{4,7}`, `{4,7}`, `{4,5}`, rest solved) with `n = 2`, cells 0 and 1 are two
distinct cells with candidate sets of cardinality 2 whose union
`D = {5,6}` has cardinality 2, and cell 4's candidate set `{4,5}` is not a
subset of `D`; yet after the invocation cell 4 still contains `5 ∈ D`,
because the `{4,7}` elimination ran first and shrank `{4,5}` to `{5}`,
which the subsequent `{5,6}` pass skips as a subset. -/
theorem disjoint_subsets_unique_correct_cex :
    gX1 0 0 = {5, 6} ∧ gX1 1 0 = {5, 6} ∧
    ((0 : Fin 9), (0 : Fin 9)) ≠ ((1 : Fin 9), (0 : Fin 9)) ∧
    ((0 : Fin 9), (0 : Fin 9)) ∈ rowCells 0 ∧
    ((1 : Fin 9), (0 : Fin 9)) ∈ rowCells 0 ∧
    (gX1 0 0 ∪ gX1 1 0 = {5, 6}) ∧ ({5, 6} : Finset ℕ).card = 2 ∧
    ((4 : Fin 9), (0 : Fin 9)) ∈ rowCells 0 ∧
    ¬ gX1 4 0 ⊆ {5, 6} ∧
    5 ∈ ({5, 6} : Finset ℕ) ∧
    5 ∈ disjoint_subsets (rowCells 0) 2 gX1 4 0 := by
  decide

/-! ### Discovery-phase invariance (C6) -/

theorem foldUnion_perm {l1 l2 : List (Finset ℕ)} (h : l1.Perm l2) :
    foldUnion l1 = foldUnion l2 := by
  haveI : RightCommutative fun (b a : Finset ℕ) => b ∪ a :=
    ⟨fun b a₁ a₂ => Finset.union_right_comm b a₁ a₂⟩
  exact h.foldl_eq ∅

theorem mem_dsList {l : List (Finset ℕ)} {n : ℕ} {d : Finset ℕ} :
    d ∈ dsList l n ↔
      ∃ c, List.Sublist c l ∧ c.length = n ∧ foldUnion c = d ∧ d.card = n := by
  unfold dsList
  rw [List.mem_dedup, List.mem_filterMap]
  constructor
  · rintro ⟨c, hc, heq⟩
    rcases List.mem_sublistsLen.mp hc with ⟨hsub, hlen⟩
    by_cases hcard : (foldUnion c).card = n
    · rw [if_pos hcard] at heq
      have hfe : foldUnion c = d := Option.some.inj heq
      exact ⟨c, hsub, hlen, hfe, hfe ▸ hcard⟩
    · rw [if_neg hcard] at heq
      exact absurd heq (by simp)
  · rintro ⟨c, hsub, hlen, hfe, hcard⟩
    refine ⟨c, List.mem_sublistsLen.mpr ⟨hsub, hlen⟩, ?_⟩
    rw [hfe, if_pos hcard]

theorem mem_dsList_of_perm {l1 l2 : List (Finset ℕ)} {n : ℕ}
    {d : Finset ℕ} (h : l1.Perm l2) (hd : d ∈ dsList l1 n) :
    d ∈ dsList l2 n := by
  rcases mem_dsList.mp hd with ⟨c, hsub, hlen, hfe, hcard⟩
  have hsp : List.Subperm c l2 := h.subperm_left.mp hsub.subperm
  rcases hsp with ⟨c', hperm, hsub'⟩
  refine mem_dsList.mpr ⟨c', hsub', ?_, ?_, hcard⟩
  · rw [hperm.length_eq, hlen]
  · rw [foldUnion_perm hperm, hfe]

/-- C6 (amended).  The collection of disjoint subsets discovered by one
invocation is computed from the snapshot of candidate sets taken before
the elimination phase begins, and as a set it does not depend on the order
in which the unit's qualifying candidate sets were collected: permuting
the collected list leaves the discovered collection unchanged.  However
— see the counterexample — the eliminations themselves are applied
sequentially against partially updated candidate sets (`applyElims`), so
the final candidate sets DO depend on the order in which the discovered
subsets are enumerated. -/
theorem dsList_perm_invariant (l1 l2 : List (Finset ℕ)) (n : ℕ)
    (h : l1.Perm l2) : (dsList l1 n).toFinset = (dsList l2 n).toFinset := by
  ext d
  rw [List.mem_toFinset, List.mem_toFinset]
  exact ⟨mem_dsList_of_perm h, mem_dsList_of_perm h.symm⟩

/-- Witness for the amended C6 at a concrete permuted pair of collections. -/
theorem dsList_perm_invariant_witness :
    ([({1, 2} : Finset ℕ), {3, 4}].Perm [{3, 4}, {1, 2}]) ∧
    (dsList [({1, 2} : Finset ℕ), {3, 4}] 2).toFinset =
      (dsList [({3, 4} : Finset ℕ), {1, 2}] 2).toFinset :=
  ⟨by decide,
   dsList_perm_invariant [{1, 2}, {3, 4}] [{3, 4}, {1, 2}] 2 (by decide)⟩

/-- Counterexample to C6 as stated.  In `gX2` (row 0: `{2,3}`, `{2,3}`,
`{1,4}`, `{1,4}`, `{1,2}`, rest solved) one invocation with `n = 2`
discovers the two subsets `{2,3}` and `{1,4}`; enumerating them in the two
possible orders leaves cell 4 with `{1}` in one case and `{2}` in the
other — the eliminations are NOT applied against the pre-invocation
snapshot, and the result depends on the enumeration order. -/
theorem dsList_snapshot_cex :
    (dsList (collectSets (rowCells 0) 2 gX2) 2).Perm
      [({2, 3} : Finset ℕ), {1, 4}] ∧
    (dsList (collectSets (rowCells 0) 2 gX2) 2).Perm
      [({1, 4} : Finset ℕ), {2, 3}] ∧
    applyElims [{2, 3}, {1, 4}] (rowCells 0) gX2 4 0 = {1} ∧
    applyElims [{1, 4}, {2, 3}] (rowCells 0) gX2 4 0 = {2} ∧
    applyElims [{2, 3}, {1, 4}] (rowCells 0) gX2 4 0 ≠
      applyElims [{1, 4}, {2, 3}] (rowCells 0) gX2 4 0 := by
  decide

/-! ### Placement propagation, idempotence, frame (C4, C9, C10) -/

/-- C4.  After a placement of `v` at `(x, y)` via `pencil_in`, the cell
holds `v`, its candidate set is empty, and `v` is absent from the
candidate set of every other cell sharing row `y`, column `x`, or the
sub-grid of `(x, y)`. -/
theorem pencil_in_propagation (b : Board) (v : ℕ) (x y : Fin 9) :
    (pencil_in v x y b).m x y = v ∧
    (pencil_in v x y b).c x y = ∅ ∧
    ∀ a bb : Fin 9, ¬(a = x ∧ bb = y) →
      bb = y ∨ a = x ∨ (sgOf a = sgOf x ∧ sgOf bb = sgOf y) →
      v ∉ (pencil_in v x y b).c a bb := by
  refine ⟨?_, ?_, ?_⟩
  · rw [pencil_in_m, if_pos ⟨rfl, rfl⟩]
  · rw [pencil_in_c, if_pos ⟨rfl, rfl⟩]
  · intro a bb hne hshare
    have hmem : (a, bb) ∈ unitPositions x y := by
      refine mem_unitPositions.mpr ?_
      rcases hshare with h | h | h
      · exact Or.inr (Or.inr h)
      · exact Or.inr (Or.inl h)
      · exact Or.inl h
    rw [pencil_in_c, if_neg hne, if_pos hmem]
    exact Finset.not_mem_erase v _

/-- Witness for C4 at a concrete placement. -/
theorem pencil_in_propagation_witness :
    (¬((7 : Fin 9) = 2 ∧ (3 : Fin 9) = 3)) ∧
    ((3 : Fin 9) = 3 ∨ (7 : Fin 9) = 2 ∨
      (sgOf 7 = sgOf 2 ∧ sgOf 3 = sgOf 3)) ∧
    (pencil_in 5 2 3 bGen).m 2 3 = 5 ∧
    (pencil_in 5 2 3 bGen).c 2 3 = ∅ ∧
    5 ∉ (pencil_in 5 2 3 bGen).c 7 3 :=
  ⟨by decide, by decide,
   (pencil_in_propagation bGen 5 2 3).1,
   (pencil_in_propagation bGen 5 2 3).2.1,
   (pencil_in_propagation bGen 5 2 3).2.2 7 3 (by decide) (by decide)⟩

theorem placed_c_idem (v : ℕ) (x y : Fin 9) (g : CGrid) :
    discardPositions (unitPositions x y) v
        (upd2 (discardPositions (unitPositions x y) v (upd2 g x y ∅)) x y ∅) =
      discardPositions (unitPositions x y) v (upd2 g x y ∅) := by
  funext a bb
  rw [placed_c_apply, placed_c_apply]
  by_cases hxy : a = x ∧ bb = y
  · simp [hxy]
  · by_cases hmem : (a, bb) ∈ unitPositions x y
    · simp [hxy, hmem, placed_c_apply, Finset.erase_idem]
    · simp [hxy, hmem, placed_c_apply]

/-- C9.  Placement is idempotent: placing the same value at the same cell
twice in succession yields exactly the same board state — grid values,
candidate sets, and row/column/sub-grid placed-value sets — as placing it
once; likewise for the `write_solution` placement body of
sudoku_final.py. -/
theorem pencil_in_idem (b : Board) (v : ℕ) (x y : Fin 9) :
    pencil_in v x y (pencil_in v x y b) = pencil_in v x y b ∧
    writeCell v x y (writeCell v x y b) = writeCell v x y b := by
  constructor
  · refine Board.ext ?_ ?_ ?_ ?_ ?_
    · funext a bb
      show (if a = x ∧ bb = y then v else (pencil_in v x y b).m a bb) =
        (pencil_in v x y b).m a bb
      by_cases h : a = x ∧ bb = y
      · rw [if_pos h, pencil_in_m, if_pos h]
      · rw [if_neg h]
    · exact placed_c_idem v x y b.c
    · show Function.update (pencil_in v x y b).rs y
        (insert v ((pencil_in v x y b).rs y)) = (pencil_in v x y b).rs
      have hval : (pencil_in v x y b).rs y = insert v (b.rs y) :=
        Function.update_same y _ b.rs
      rw [hval, Finset.insert_idem]
      show Function.update (Function.update b.rs y (insert v (b.rs y))) y
        (insert v (b.rs y)) = Function.update b.rs y (insert v (b.rs y))
      rw [Function.update_idem]
    · show Function.update (pencil_in v x y b).cs x
        (insert v ((pencil_in v x y b).cs x)) = (pencil_in v x y b).cs
      have hval : (pencil_in v x y b).cs x = insert v (b.cs x) :=
        Function.update_same x _ b.cs
      rw [hval, Finset.insert_idem]
      show Function.update (Function.update b.cs x (insert v (b.cs x))) x
        (insert v (b.cs x)) = Function.update b.cs x (insert v (b.cs x))
      rw [Function.update_idem]
    · funext i j
      show (if i = sgOf x ∧ j = sgOf y
          then insert v ((pencil_in v x y b).sgs i j)
          else (pencil_in v x y b).sgs i j) = (pencil_in v x y b).sgs i j
      by_cases h : i = sgOf x ∧ j = sgOf y
      · rw [if_pos h]
        show insert v (if i = sgOf x ∧ j = sgOf y
            then insert v (b.sgs i j) else b.sgs i j) = _
        rw [if_pos h, Finset.insert_idem]
        show insert v (b.sgs i j) =
          if i = sgOf x ∧ j = sgOf y then insert v (b.sgs i j) else b.sgs i j
        rw [if_pos h]
      · rw [if_neg h]
  · refine Board.ext ?_ ?_ rfl rfl rfl
    · funext a bb
      show (if a = x ∧ bb = y then v else (writeCell v x y b).m a bb) =
        (writeCell v x y b).m a bb
      by_cases h : a = x ∧ bb = y
      · rw [if_pos h, writeCell_m, if_pos h]
      · rw [if_neg h]
    · exact placed_c_idem v x y b.c

/-- C10.  A placement of `v` at `(x, y)` leaves unchanged the candidate set
of every cell sharing neither row `y` nor column `x` nor the sub-grid of
`(x, y)`, and leaves the placed grid value of every cell other than
`(x, y)` unchanged; both for `pencil_in` and for the `write_solution`
placement body. -/
theorem pencil_in_frame (b : Board) (v : ℕ) (x y a bb : Fin 9) :
    (a ≠ x → bb ≠ y → ¬(sgOf a = sgOf x ∧ sgOf bb = sgOf y) →
      (pencil_in v x y b).c a bb = b.c a bb ∧
      (writeCell v x y b).c a bb = b.c a bb) ∧
    (¬(a = x ∧ bb = y) →
      (pencil_in v x y b).m a bb = b.m a bb ∧
      (writeCell v x y b).m a bb = b.m a bb) := by
  constructor
  · intro hax hby hsg
    have hnmem : (a, bb) ∉ unitPositions x y := by
      intro hmem
      rcases mem_unitPositions.mp hmem with h | h | h
      · exact hsg h
      · exact hax h
      · exact hby h
    have hne : ¬(a = x ∧ bb = y) := fun h => hax h.1
    constructor
    · rw [pencil_in_c, if_neg hne, if_neg hnmem]
    · rw [writeCell_c, if_neg hne, if_neg hnmem]
  · intro hne
    exact ⟨by rw [pencil_in_m, if_neg hne], by rw [writeCell_m, if_neg hne]⟩

/-- Witness for C10 at a concrete placement and far-away cell. -/
theorem pencil_in_frame_witness :
    ((4 : Fin 9) ≠ 2 ∧ (7 : Fin 9) ≠ 3 ∧
      ¬(sgOf 4 = sgOf 2 ∧ sgOf 7 = sgOf 3)) ∧
    (pencil_in 5 2 3 bGen).c 4 7 = bGen.c 4 7 ∧
    (writeCell 5 2 3 bGen).c 4 7 = bGen.c 4 7 ∧
    (pencil_in 5 2 3 bGen).m 4 7 = bGen.m 4 7 ∧
    (writeCell 5 2 3 bGen).m 4 7 = bGen.m 4 7 :=
  ⟨⟨by decide, by decide, by decide⟩,
   ((pencil_in_frame bGen 5 2 3 4 7).1 (by decide) (by decide) (by decide)).1,
   ((pencil_in_frame bGen 5 2 3 4 7).1 (by decide) (by decide) (by decide)).2,
   ((pencil_in_frame bGen 5 2 3 4 7).2 (by decide)).1,
   ((pencil_in_frame bGen 5 2 3 4 7).2 (by decide)).2⟩

/-! ### is_solved (C3) and init validation (C7) -/

theorem is_solved_iff (b : Board) :
    is_solved b = true ↔ ∀ x y : Fin 9, b.c x y = ∅ := by
  unfold is_solved
  simp only [List.all_eq_true, beq_iff_eq]
  constructor
  · intro h x y
    exact h x (List.mem_finRange x) y (List.mem_finRange y)
  · intro h x _ y _
    exact h x y

/-- C3 (amended).  `is_solved()` of sudoku_final.py returns true iff every
cell's candidate set is empty.  This coincides with "every cell holds a
nonzero value" only on boards satisfying both cell/candidate invariants
(empty cells keep a nonempty candidate set, placed cells an empty one);
the code neither checks nor maintains the first invariant, and the
counterexample exhibits a reachable state — the `init` output of an
accepted input — on which `is_solved` returns true while a cell still
holds 0. -/
theorem is_solved_spec (b : Board) :
    (is_solved b = true ↔ ∀ x y : Fin 9, b.c x y = ∅) ∧
    ((∀ x y : Fin 9, b.m x y = 0 → b.c x y ≠ ∅) →
      (∀ x y : Fin 9, b.m x y ≠ 0 → b.c x y = ∅) →
      (is_solved b = true ↔ ∀ x y : Fin 9, b.m x y ≠ 0)) := by
  refine ⟨is_solved_iff b, ?_⟩
  intro h1 h2
  rw [is_solved_iff]
  constructor
  · intro h x y hm
    exact h1 x y hm (h x y)
  · intro h x y
    exact h2 x y (h x y)

/-- Witness for the amended C3 on a fully placed board. -/
theorem is_solved_spec_witness :
    (∀ x y : Fin 9, bW3.m x y = 0 → bW3.c x y ≠ ∅) ∧
    (∀ x y : Fin 9, bW3.m x y ≠ 0 → bW3.c x y = ∅) ∧
    (is_solved bW3 = true ↔ ∀ x y : Fin 9, bW3.m x y ≠ 0) :=
  ⟨by decide, by decide, (is_solved_spec bW3).2 (by decide) (by decide)⟩

/-- Counterexample to C3 as stated: on the board `init` builds from
`raw3` — a state reachable at the very start of a solving run — every
candidate set is empty (cell (0,0) is blank but sees all nine values), so
`is_solved` returns true although cell (0,0) holds 0. -/
theorem is_solved_spec_cex :
    (initB raw3).isSome = true ∧
    is_solved bd3 = true ∧
    bd3.m 0 0 = 0 := by
  decide

/-- C7 (amended).  Initialization performs no content validation at all:
for every structurally well-formed raw input (at least 9 rows, each with
at least 9 entries, all entries digits) `init` succeeds, duplicate
nonzero values within a row/column/sub-grid included — `MalformedInputError`
does not exist in the code.  Structurally malformed input fails with an
uncaught `IndexError`/`ValueError` (the `none` branch), not with a
dedicated error, and only after part of `m_grid` has been mutated (the
mutation is outside this functional model). -/
theorem initB_no_content_validation (raw : List (List ℕ))
    (h : structOk raw = true) : (initB raw).isSome = true := by
  unfold initB
  rw [if_pos h]
  rfl

/-- Witness for the amended C7: an input with two 7s in the same column is
accepted. -/
theorem initB_no_content_validation_witness :
    structOk raw7w = true ∧ (initB raw7w).isSome = true :=
  ⟨by decide, initB_no_content_validation raw7w (by decide)⟩

/-- Counterexample to C7 as stated: `raw7` has two 5s in row 0 — the
spec's own example of malformed input — yet `init` raises nothing,
returns a state, and computes candidate sets (cell (2,0) gets `{8,9}`). -/
theorem initB_rejects_malformed_cex :
    rawVal raw7 0 0 = 5 ∧ rawVal raw7 1 0 = 5 ∧ (5 : ℕ) ≠ 0 ∧
    (initB raw7).isSome = true ∧
    bd7.c 2 0 = {8, 9} := by
  decide

/-! ### Driver termination and round cap (C8) -/

theorem iterRound_shift (k : ℕ) (b : Board) :
    iterRound (k + 1) b = iterRound k (roundF b) := rfl

theorem solveLoop_spec : ∀ (n : ℕ) (b : Board),
    (n = 0 ∧ solveLoop n b = (b, false)) ∨
    ∃ k, 1 ≤ k ∧ k ≤ n ∧ (solveLoop n b).1 = iterRound k b ∧
      ((solveLoop n b).2 = true ↔ is_solved (iterRound k b) = true) ∧
      (∀ j, 1 ≤ j → j < k → is_solved (iterRound j b) = false) ∧
      ((solveLoop n b).2 = false → k = n) := by
  intro n
  induction n with
  | zero => intro b; exact Or.inl ⟨rfl, rfl⟩
  | succ n ih =>
    intro b
    right
    by_cases hs : is_solved (roundF b) = true
    · have heq : solveLoop (n + 1) b = (roundF b, true) := by
        show (if is_solved (roundF b) then (roundF b, true)
          else solveLoop n (roundF b)) = (roundF b, true)
        rw [if_pos hs]
      refine ⟨1, le_refl 1, by omega, ?_, ?_, ?_, ?_⟩
      · rw [heq]; rfl
      · rw [heq]
        constructor
        · intro _; exact hs
        · intro _; rfl
      · intro j hj1 hj2; omega
      · rw [heq]; intro h; exact absurd h (by simp)
    · have heq : solveLoop (n + 1) b = solveLoop n (roundF b) := by
        show (if is_solved (roundF b) then (roundF b, true)
          else solveLoop n (roundF b)) = solveLoop n (roundF b)
        rw [if_neg hs]
      have hsf : is_solved (iterRound 1 b) = false := by
        show is_solved (roundF b) = false
        exact Bool.eq_false_iff.mpr hs
      rcases ih (roundF b) with ⟨hn0, hval⟩ | ⟨k', hk1, hkn, h1, h2, h3, h4⟩
      · subst hn0
        refine ⟨1, le_refl 1, le_refl 1, ?_, ?_, ?_, ?_⟩
        · rw [heq, hval]; rfl
        · rw [heq, hval]
          constructor
          · intro h; exact absurd h (by simp)
          · intro h; exact absurd h (Bool.eq_false_iff.mp hsf)
        · intro j hj1 hj2; omega
        · intro _; rfl
      · refine ⟨k' + 1, by omega, by omega, ?_, ?_, ?_, ?_⟩
        · rw [heq, iterRound_shift]; exact h1
        · rw [heq, iterRound_shift]; exact h2
        · intro j hj1 hj2
          cases j with
          | zero => omega
          | succ j2 =>
            cases j2 with
            | zero => exact hsf
            | succ j3 =>
              rw [iterRound_shift]
              exact h3 (j3 + 1) (by omega) (by omega)
        · rw [heq]
          intro h
          rw [h4 h]

/-- C8.  For every initial board, the driver loop of `main()` terminates
after at most 100 rounds: its result is some `iterRound k b` with
`1 ≤ k ≤ 100`; it reports Solved exactly when `is_solved` holds after
round `k`; no earlier round was already solved (it stops immediately once
`is_solved` returns true); and reaching the cap without solving is
reported as the unsolved outcome (the Bool `false`), not an error. -/
theorem mainSolve_spec (b : Board) :
    ∃ k, 1 ≤ k ∧ k ≤ 100 ∧ (mainSolve b).1 = iterRound k b ∧
      ((mainSolve b).2 = true ↔ is_solved (iterRound k b) = true) ∧
      (∀ j, 1 ≤ j → j < k → is_solved (iterRound j b) = false) ∧
      ((mainSolve b).2 = false → k = 100) := by
  rcases solveLoop_spec 100 b with ⟨h0, _⟩ | h
  · exact absurd h0 (by omega)
  · exact h

/-! ### Hidden single (C5) -/

theorem countFoldAux_none (w : ℕ) (y : Fin 9) (g : CGrid) :
    ∀ (l : List (Fin 9)) (s : ℕ × Fin 9), (∀ x ∈ l, w ∉ g x y) →
      l.foldl (fun p x => if w ∈ g x y then (p.1 + 1, x) else p) s = s := by
  intro l
  induction l with
  | nil => intro s _; rfl
  | cons x t ih =>
    intro s h
    rw [List.foldl_cons, if_neg (h x (List.mem_cons_self x t))]
    exact ih s fun x hx => h x (List.mem_cons_of_mem _ hx)

theorem countFoldAux_unique (w : ℕ) (y : Fin 9) (g : CGrid) (A : Fin 9) :
    ∀ (l : List (Fin 9)) (s : ℕ × Fin 9), (∀ x ∈ l, w ∈ g x y ↔ x = A) →
      A ∈ l → l.Nodup →
      l.foldl (fun p x => if w ∈ g x y then (p.1 + 1, x) else p) s =
        (s.1 + 1, A) := by
  intro l
  induction l with
  | nil => intro s _ hA _; exact absurd hA (List.not_mem_nil A)
  | cons x t ih =>
    intro s h hA hnd
    by_cases hx : x = A
    · subst hx
      rw [List.foldl_cons,
        if_pos ((h x (List.mem_cons_self x t)).mpr rfl)]
      refine countFoldAux_none w y g t (s.1 + 1, x) ?_
      intro z hz hmem
      have hzA : z = x := (h z (List.mem_cons_of_mem _ hz)).mp hmem
      subst hzA
      exact (List.nodup_cons.mp hnd).1 hz
    · have hxn : w ∉ g x y := fun hmem =>
        hx ((h x (List.mem_cons_self x t)).mp hmem)
      rw [List.foldl_cons, if_neg hxn]
      refine ih s (fun z hz => h z (List.mem_cons_of_mem _ hz)) ?_
        (List.nodup_cons.mp hnd).2
      rcases List.mem_cons.mp hA with h1 | h1
      · exact absurd h1.symm hx
      · exact h1

theorem countFoldAux_mono (w : ℕ) (y : Fin 9) (g : CGrid) :
    ∀ (l : List (Fin 9)) (s : ℕ × Fin 9),
      s.1 ≤ (l.foldl (fun p x => if w ∈ g x y then (p.1 + 1, x) else p)
        s).1 ∧
      ((l.foldl (fun p x => if w ∈ g x y then (p.1 + 1, x) else p)
          s).1 = s.1 →
        l.foldl (fun p x => if w ∈ g x y then (p.1 + 1, x) else p) s = s) ∧
      (s.1 < (l.foldl (fun p x => if w ∈ g x y then (p.1 + 1, x) else p)
          s).1 →
        w ∈ g ((l.foldl (fun p x => if w ∈ g x y then (p.1 + 1, x) else p)
          s).2) y) := by
  intro l
  induction l with
  | nil =>
    intro s
    exact ⟨le_refl _, fun _ => rfl, fun h => absurd h (lt_irrefl _)⟩
  | cons x t ih =>
    intro s
    rw [List.foldl_cons]
    by_cases hx : w ∈ g x y
    · rw [if_pos hx]
      rcases ih (s.1 + 1, x) with ⟨ih1, ih2, ih3⟩
      refine ⟨by omega, ?_, ?_⟩
      · intro h
        exact absurd h (by omega)
      · intro _
        by_cases hgt : (s.1 + 1 : ℕ) <
            (t.foldl (fun p x => if w ∈ g x y then (p.1 + 1, x) else p)
              (s.1 + 1, x)).1
        · exact ih3 hgt
        · have heq := ih2 (by omega)
          rw [heq]
          exact hx
    · rw [if_neg hx]
      exact ih s

theorem rowCount_unique (w : ℕ) (y : Fin 9) (g : CGrid) (A : Fin 9)
    (huniq : ∀ x : Fin 9, w ∈ g x y ↔ x = A) : rowCount w y g = (1, A) :=
  countFoldAux_unique w y g A (List.finRange 9) (0, ⟨0, by omega⟩)
    (fun x _ => huniq x) (List.mem_finRange A) (List.nodup_finRange 9)

theorem rowCount_none (w : ℕ) (y : Fin 9) (g : CGrid)
    (hnone : ∀ x : Fin 9, w ∉ g x y) :
    rowCount w y g = (0, ⟨0, by omega⟩) :=
  countFoldAux_none w y g (List.finRange 9) (0, ⟨0, by omega⟩)
    fun x _ => hnone x

theorem rowCount_pos_mem (w : ℕ) (y : Fin 9) (g : CGrid)
    (h : 0 < (rowCount w y g).1) : w ∈ g (rowCount w y g).2 y :=
  (countFoldAux_mono w y g (List.finRange 9) (0, ⟨0, by omega⟩)).2.2 h

/-- If `w` is the unique hidden single of row `y` at cell `A`, one
iteration of the candidate loop performs exactly `pencil_in w A y`. -/
theorem hiddenStepRow_places (y A : Fin 9) (w : ℕ) (b : Board)
    (huniq : ∀ x : Fin 9, w ∈ b.c x y ↔ x = A) :
    hiddenStepRow y b w = pencil_in w A y b := by
  unfold hiddenStepRow
  rw [rowCount_unique w y b.c A huniq]
  rfl

/-- One iteration of the candidate loop (for any value `u`) preserves:
cell `(A, y)` already placed with `w` and cleared, and `w` absent from
every cell of the three units through `(A, y)`. -/
theorem hiddenStepRow_preserves (y A : Fin 9) (w u : ℕ) (b : Board)
    (h1 : b.m A y = w) (h2 : b.c A y = ∅)
    (h3 : ∀ p : Fin 9 × Fin 9, p ∈ unitPositions A y → w ∉ b.c p.1 p.2) :
    (hiddenStepRow y b u).m A y = w ∧ (hiddenStepRow y b u).c A y = ∅ ∧
    ∀ p : Fin 9 × Fin 9, p ∈ unitPositions A y →
      w ∉ (hiddenStepRow y b u).c p.1 p.2 := by
  unfold hiddenStepRow
  by_cases hcnt : (rowCount u y b.c).1 = 1
  · rw [if_pos hcnt]
    have hmem : u ∈ b.c (rowCount u y b.c).2 y :=
      rowCount_pos_mem u y b.c (by omega)
    have hne : (rowCount u y b.c).2 ≠ A := by
      intro hEq
      rw [hEq, h2] at hmem
      exact absurd hmem (Finset.not_mem_empty u)
    refine ⟨?_, ?_, ?_⟩
    · rw [pencil_in_m, if_neg (fun hc => hne hc.1.symm)]
      exact h1
    · have := pencil_in_c_subset u (rowCount u y b.c).2 y A y b
      rw [h2] at this
      exact Finset.subset_empty.mp this
    · intro p hp hin
      exact h3 p hp (pencil_in_c_subset u (rowCount u y b.c).2 y p.1 p.2 b hin)
  · rw [if_neg hcnt]
    exact ⟨h1, h2, h3⟩

theorem hiddenFold_preserves (y A : Fin 9) (w : ℕ) :
    ∀ (l : List ℕ) (b : Board),
      b.m A y = w → b.c A y = ∅ →
      (∀ p : Fin 9 × Fin 9, p ∈ unitPositions A y → w ∉ b.c p.1 p.2) →
      (l.foldl (hiddenStepRow y) b).m A y = w ∧
      (l.foldl (hiddenStepRow y) b).c A y = ∅ ∧
      ∀ p : Fin 9 × Fin 9, p ∈ unitPositions A y →
        w ∉ (l.foldl (hiddenStepRow y) b).c p.1 p.2 := by
  intro l
  induction l with
  | nil => intro b h1 h2 h3; exact ⟨h1, h2, h3⟩
  | cons u t ih =>
    intro b h1 h2 h3
    rw [List.foldl_cons]
    rcases hiddenStepRow_preserves y A w u b h1 h2 h3 with ⟨g1, g2, g3⟩
    exact ih (hiddenStepRow y b u) g1 g2 g3

theorem sort_min_cons (s : Finset ℕ) (w : ℕ) (hw : w ∈ s)
    (hmin : ∀ u ∈ s, w ≤ u) :
    ∃ t, s.sort (· ≤ ·) = w :: t := by
  have hne : s.sort (· ≤ ·) ≠ [] := by
    intro h
    have := (Finset.mem_sort (α := ℕ) (· ≤ ·)).mpr hw
    rw [h] at this
    exact absurd this (List.not_mem_nil w)
  obtain ⟨hd, t, hcons⟩ := List.exists_cons_of_ne_nil hne
  refine ⟨t, ?_⟩
  have hsorted := Finset.sort_sorted (· ≤ ·) s
  rw [hcons] at hsorted
  rcases List.sorted_cons.mp hsorted with ⟨hhead, _⟩
  have hhd_mem : hd ∈ s := by
    have : hd ∈ s.sort (· ≤ ·) := by rw [hcons]; exact List.mem_cons_self _ _
    exact (Finset.mem_sort (α := ℕ) (· ≤ ·)).mp this
  have hw_mem : w ∈ s.sort (· ≤ ·) :=
    (Finset.mem_sort (α := ℕ) (· ≤ ·)).mpr hw
  rw [hcons] at hw_mem
  have hhd_eq : hd = w := by
    rcases List.mem_cons.mp hw_mem with h | h
    · exact h.symm
    · exact le_antisymm (hhead w h) (hmin hd hhd_mem)
  rw [hcons, hhd_eq]

/-- The placement `pencil_in w A y` establishes the hidden-single
invariant: the cell holds `w` with an empty candidate set, and `w` is
absent from every cell of the three units through `(A, y)`. -/
theorem pencil_in_establishes (w : ℕ) (A y : Fin 9) (b : Board) :
    (pencil_in w A y b).m A y = w ∧ (pencil_in w A y b).c A y = ∅ ∧
    ∀ p : Fin 9 × Fin 9, p ∈ unitPositions A y →
      w ∉ (pencil_in w A y b).c p.1 p.2 := by
  refine ⟨?_, ?_, ?_⟩
  · rw [pencil_in_m, if_pos ⟨rfl, rfl⟩]
  · rw [pencil_in_c, if_pos ⟨rfl, rfl⟩]
  · intro p hp
    rw [pencil_in_c]
    by_cases hcell : p.1 = A ∧ p.2 = y
    · rw [if_pos hcell]
      exact Finset.not_mem_empty w
    · rw [if_neg hcell, if_pos (by rcases p with ⟨p1, p2⟩; exact hp)]
      exact Finset.not_mem_erase w _

/-- C5 (amended).  If value `w` is not yet placed in row `y` (per the
row's placed-value set, which the scan iterates the complement of in
ascending order), `w` is the smallest such value — i.e. the first one the
scan examines — and exactly one cell `(A, y)` of the row contains `w` as a
candidate, then after one invocation of `single_sq_candidate_row y` the
cell is placed with `w`, its candidate set is empty, and `w` has been
removed from every cell of the row, of column `A`, and of the sub-grid of
`(A, y)`.  For later-examined values the same guarantee holds only if no
earlier hidden single of the same invocation is placed into the same
cell: the counterexample shows a smaller value claiming the cell first,
after which the unique holder of `w` is cleared and `w` is never placed. -/
theorem single_sq_candidate_row_min_correct (b : Board) (y A : Fin 9)
    (w : ℕ)
    (hw : w ∈ full_set \ b.rs y)
    (hmin : ∀ u ∈ full_set \ b.rs y, w ≤ u)
    (huniq : ∀ x : Fin 9, w ∈ b.c x y ↔ x = A) :
    (single_sq_candidate_row y b).m A y = w ∧
    (single_sq_candidate_row y b).c A y = ∅ ∧
    (∀ i : Fin 9, w ∉ (single_sq_candidate_row y b).c i y) ∧
    (∀ i : Fin 9, w ∉ (single_sq_candidate_row y b).c A i) ∧
    (∀ a bb : Fin 9, sgOf a = sgOf A → sgOf bb = sgOf y →
      w ∉ (single_sq_candidate_row y b).c a bb) := by
  obtain ⟨t, hsort⟩ := sort_min_cons (full_set \ b.rs y) w hw hmin
  unfold single_sq_candidate_row
  rw [hsort, List.foldl_cons, hiddenStepRow_places y A w b huniq]
  rcases pencil_in_establishes w A y b with ⟨g1, g2, g3⟩
  rcases hiddenFold_preserves y A w t (pencil_in w A y b) g1 g2 g3 with
    ⟨f1, f2, f3⟩
  refine ⟨f1, f2, ?_, ?_, ?_⟩
  · intro i
    exact f3 (i, y) (mem_unitPositions.mpr (Or.inr (Or.inr rfl)))
  · intro i
    exact f3 (A, i) (mem_unitPositions.mpr (Or.inr (Or.inl rfl)))
  · intro a bb ha hbb
    exact f3 (a, bb) (mem_unitPositions.mpr (Or.inl ⟨ha, hbb⟩))

/-- Witness for the amended C5: on `bW5`, value 3 is the smallest unplaced
value of row 0 and is a hidden single of cell (0,0); the invocation places
it there and removes it from the sibling units. -/
theorem single_sq_candidate_row_min_correct_witness :
    (3 ∈ full_set \ bW5.rs 0) ∧
    (∀ u ∈ full_set \ bW5.rs 0, 3 ≤ u) ∧
    (∀ x : Fin 9, 3 ∈ bW5.c x 0 ↔ x = 0) ∧
    ((single_sq_candidate_row 0 bW5).m 0 0 = 3 ∧
     (single_sq_candidate_row 0 bW5).c 0 0 = ∅ ∧
     (∀ i : Fin 9, 3 ∉ (single_sq_candidate_row 0 bW5).c i 0) ∧
     (∀ i : Fin 9, 3 ∉ (single_sq_candidate_row 0 bW5).c 0 i) ∧
     (∀ a bb : Fin 9, sgOf a = sgOf 0 → sgOf bb = sgOf 0 →
       3 ∉ (single_sq_candidate_row 0 bW5).c a bb)) :=
  ⟨by decide, by decide, by decide,
   single_sq_candidate_row_min_correct bW5 0 0 3 (by decide) (by decide)
     (by decide)⟩

/-- Counterexample to C5 as stated.  On `bC5`, value 5 is unplaced in row 0
and is a candidate of exactly one cell, (0,0); but value 3 — examined
first by the ascending scan — is also uniquely confined to (0,0), so the
invocation places 3 there, clears the cell, and 5's count drops to zero:
after one invocation the unique holder of 5 holds 3, not 5. -/
theorem single_sq_candidate_row_cex :
    (5 ∉ bC5.rs 0) ∧
    (∀ x : Fin 9, 5 ∈ bC5.c x 0 ↔ x = 0) ∧
    (single_sq_candidate_row 0 bC5).m 0 0 = 3 ∧ (3 : ℕ) ≠ 5 := by
  have hsort : (full_set \ bC5.rs 0).sort (· ≤ ·) = [3, 5] := by
    have hset : full_set \ bC5.rs 0 = {3, 5} := by decide
    rw [hset,
      Finset.sort_insert (· ≤ ·) (by decide) (by decide),
      Finset.sort_singleton]
  have huniq3 : ∀ x : Fin 9, 3 ∈ bC5.c x 0 ↔ x = 0 := by decide
  have hb1 : hiddenStepRow 0 bC5 3 = pencil_in 3 0 0 bC5 :=
    hiddenStepRow_places 0 0 3 bC5 huniq3
  have hnone : ∀ x : Fin 9, 5 ∉ (pencil_in 3 0 0 bC5).c x 0 := by
    intro x
    rw [pencil_in_c]
    by_cases hx : x = 0 ∧ (0 : Fin 9) = 0
    · rw [if_pos hx]
      exact Finset.not_mem_empty 5
    · have hx0 : x ≠ 0 := fun h => hx ⟨h, rfl⟩
      have hval : bC5.c x 0 = ∅ := by
        show (if (0 : Fin 9) = 0 ∧ x = 0 then ({3, 5} : Finset ℕ) else ∅) = ∅
        rw [if_neg (fun h => hx0 h.2)]
      rw [if_neg hx,
        if_pos (mem_unitPositions.mpr (Or.inr (Or.inr rfl))), hval]
      decide
  have hb2 : hiddenStepRow 0 (pencil_in 3 0 0 bC5) 5 =
      pencil_in 3 0 0 bC5 := by
    unfold hiddenStepRow
    rw [rowCount_none 5 0 (pencil_in 3 0 0 bC5).c hnone]
    rfl
  have hrun : single_sq_candidate_row 0 bC5 = pencil_in 3 0 0 bC5 := by
    unfold single_sq_candidate_row
    rw [hsort, List.foldl_cons, hb1, List.foldl_cons, hb2, List.foldl_nil]
  refine ⟨by decide, by decide, ?_, by decide⟩
  rw [hrun, pencil_in_m, if_pos ⟨rfl, rfl⟩]

end Sudoku

